import Mathlib

/-!
# Verification of the anchored field-extraction, packing and proof-binding protocol

Shallow embedding of the core of `web3-authn/zk-email-verifier`:

* the constraint fragments of `circuits/RecoverEmailCircuit.circom`
  (anchor checks, the From-gap no-newline check, ASCII lowercasing,
  the SHA-256 preimage/padding construction built from rotations,
  and the block-count threshold ladder);
* the byte-substring packing used for the public outputs
  (`PackByteSubArray`, 31 bytes per field element) and its inverse;
* the verifier-side operations `verify` / `verify_with_binding`
  described in `docs/wasm-groth16-verifier.md`;
* `checkGroth16ZkeyLayout` from the snarkjs utility module;
* the offset computation of `scripts/generateWitness.ts`.

Buffers are `List ℕ` of byte values; field elements are `ℕ` (all the
arithmetic appearing in the embedded constraints stays far below the
BN254 modulus, and where a constraint lives on signed differences we
compute in `ℤ`).
-/

namespace ZkEmail

/-! ## Models of the circomlib / zk-email gadgets used by the circuit -/

/-- circomlib `IsZero`: output signal is 1 when the input is 0, else 0. -/
def isZeroOut (x : ℕ) : ℕ := if x = 0 then 1 else 0

/-- circomlib `IsZero` on an integer-valued signal. -/
def isZeroOutZ (x : ℤ) : ℕ := if x = 0 then 1 else 0

/-- circomlib `LessThan(n)`: output is 1 when `a < b`, else 0. -/
def lessThanOut (a b : ℕ) : ℕ := if a < b then 1 else 0

/-- circomlib `LessEqThan(n)`: output is 1 when `a ≤ b`, else 0. -/
def lessEqThanOut (a b : ℕ) : ℕ := if a ≤ b then 1 else 0

/-- Satisfiability of circomlib `Num2Bits(n)` on input `x`: the input
must fit in `n` bits. -/
def num2BitsSat (n x : ℕ) : Prop := x < 2 ^ n

instance (n x : ℕ) : Decidable (num2BitsSat n x) := by
  unfold num2BitsSat
  infer_instance

/-- zk-email `SelectSubArray(maxArrayLen, maxSubArrayLen)` under its
documented contract (`startIndex + length ≤ maxArrayLen`):
`out[i] = in[startIndex + i]` for `i < length` and 0 for the zero-fill
tail up to `maxSub`. -/
def selectSubArray (buf : List ℕ) (startIndex length maxSub : ℕ) : List ℕ :=
  (List.range maxSub).map fun i => if i < length then buf.getD (startIndex + i) 0 else 0

/-- zk-email `VarShiftLeft(n, n)` is a rotation with the shift amount:
`out[i] = in[(i + shift) % n]` (the circuit always uses it with
out-length = in-length, i.e. as a pure rotation). The array is given as
an index function. -/
def varShiftLeft (f : ℕ → ℕ) (n shift i : ℕ) : ℕ := f ((i + shift) % n)

/-! ## Anchor constraints (RecoverEmailCircuit.circom, lines 52-62,
147-158 and 198-209: `subjectAnchor` / `fromAnchor` / `dateAnchor`)

The circuit selects the two bytes at `start_idx - 2` and asserts, gated
by `IsZero(start_idx)`:

    (1 - isFirst) * (anchor[0] - 13) === 0
    (1 - isFirst) * (anchor[1] - 10) === 0
-/

/-- The anchor constraint block attached to each top-level field
(Subject / From / Date).  `startIdx - 2` is the `SelectSubArray`
start index computed by the circuit; the two gated equations are taken
verbatim (they live on differences, hence stated in `ℤ`). -/
def anchorConstraints (emailHeader : List ℕ) (startIdx : ℕ) : Prop :=
  ((1 : ℤ) - isZeroOut startIdx) *
      (((selectSubArray emailHeader (startIdx - 2) 2 2).getD 0 0 : ℤ) - 13) = 0 ∧
  ((1 : ℤ) - isZeroOut startIdx) *
      (((selectSubArray emailHeader (startIdx - 2) 2 2).getD 1 0 : ℤ) - 10) = 0

/-! ## From-gap no-newline constraints (lines 180-196 / 434-450)

    from_gap_start = from_start_idx + 5
    from_gap_len   = from_addr_idx - from_gap_start
    fromGap        = SelectSubArray(emailHeader, from_gap_start, from_gap_len)  (window 255)
    for i < 255:  IsZero((fromGap[i] - 13) * (fromGap[i] - 10)).out === 0
-/

/-- The From no-newline gap constraint block, exactly as emitted by the
circuit: every slot of the 255-wide selected gap window must satisfy
`(byte - 13) * (byte - 10) ≠ 0` (expressed through `IsZero ... === 0`). -/
def fromGapConstraints (emailHeader : List ℕ) (from_start_idx from_addr_idx : ℕ) : Prop :=
  ∀ i < 255,
    isZeroOutZ
      ((((selectSubArray emailHeader (from_start_idx + 5)
            (from_addr_idx - (from_start_idx + 5)) 255).getD i 0 : ℤ) - 13) *
       (((selectSubArray emailHeader (from_start_idx + 5)
            (from_addr_idx - (from_start_idx + 5)) 255).getD i 0 : ℤ) - 10)) = 0

/-! ## Length range constraints and the hash preimage length (lines 452-457, 569-575) -/

/-- The `Num2Bits(8)` range constraints the circuit places on
`from_addr_len` and `subject_account_id_len` before hashing. -/
def lenRangeConstraints (from_addr_len subject_account_id_len : ℕ) : Prop :=
  num2BitsSat 8 from_addr_len ∧ num2BitsSat 8 subject_account_id_len

/-- `preimage_len <== from_addr_len + 1 + subject_account_id_len`. -/
def preimageLenCircuit (from_addr_len subject_account_id_len : ℕ) : ℕ :=
  from_addr_len + 1 + subject_account_id_len

/-! ## SHA-256 block-count selection ladder (lines 577-637) -/

/-- The circuit's block-count selection: eight `LessEqThan` threshold
comparisons of `preimage_len` against 55, 119, 183, 247, 311, 375, 439,
503, combined into indicator signals `isBlock1 .. isBlock9` and summed
with weights 1..9. -/
def numBlocksCircuit (L : ℕ) : ℕ :=
  let le55 := lessEqThanOut L 55
  let le119 := lessEqThanOut L 119
  let le183 := lessEqThanOut L 183
  let le247 := lessEqThanOut L 247
  let le311 := lessEqThanOut L 311
  let le375 := lessEqThanOut L 375
  let le439 := lessEqThanOut L 439
  let le503 := lessEqThanOut L 503
  1 * le55
    + 2 * (le119 - le55)
    + 3 * (le183 - le119)
    + 4 * (le247 - le183)
    + 5 * (le311 - le247)
    + 6 * (le375 - le311)
    + 7 * (le439 - le375)
    + 8 * (le503 - le439)
    + 9 * (1 - le503)

/-- `preimage_padded_len <== numBlocks * 64` (stated as `64 * numBlocks`). -/
def paddedLenCircuit (L : ℕ) : ℕ := 64 * numBlocksCircuit L

/-! ## Substring packing (`PackByteSubArray`, instantiated with
`max_subject_part_len = max_pubkey_len = max_from_len = max_date_len = 255`
at RecoverEmailCircuit.circom lines 129-145, 173-178 and 224-229) -/

/-- Modelled from the spec: element `i` of the packed value produced by
zk-email's `PackByteSubArray` (whose internals are not part of this
repository's sources) — the base-256 big-endian integer of the byte
chunk `[i*31, (i+1)*31)` of the logical substring, zero-extended on the
right past the substring's actual length (so the whole element is 0
when `i*31 ≥ length`). -/
def packChunk (bytes : List ℕ) (i : ℕ) : ℕ :=
  (List.range 31).foldl (fun acc j => acc * 256 + bytes.getD (31 * i + j) 0) 0

/-- Modelled from the spec: the full packed value — 9 field elements
for `maxLen = 255` with 31 bytes per element. -/
def pack (bytes : List ℕ) : List ℕ :=
  (List.range 9).map (packChunk bytes)

/-- Modelled from the spec: the 31 base-256 big-endian digits of one
packed field element. -/
def unpackElem (v : ℕ) : List ℕ :=
  (List.range 31).map fun j => v / 256 ^ (30 - j) % 256

/-- Modelled from the spec: the inverse operation — unpack every
element into its 31 bytes and truncate at the substring length. -/
def unpack (vs : List ℕ) (len : ℕ) : List ℕ :=
  ((vs.map unpackElem).flatten).take len

/-! ## ASCII lowercasing (RecoverEmailCircuit.circom privacy variant,
lines 459-488 for the From bytes and 490-518 for the account-id bytes)

    fromIsGe65 <== 1 - LessThan(byte, 65)
    fromIsUpper <== fromIsGe65 * LessThan(byte, 91)
    from_email_lower <== byte + 32 * fromIsUpper
-/

/-- The per-byte canonicalization the circuit applies before hashing. -/
def lowerByte (b : ℕ) : ℕ :=
  b + 32 * ((1 - lessThanOut b 65) * lessThanOut b 91)

/-- ASCII lowercasing as the spec words it: bytes 65..90 (`'A'..'Z'`)
map to their `+32` counterparts, every other byte passes unchanged. -/
def asciiLowerSpec (b : ℕ) : ℕ := if 65 ≤ b ∧ b ≤ 90 then b + 32 else b

/-! ## Hash preimage construction (lines 520-567)

The circuit concatenates `<from_email_lower> | <account_id_lower>` with
dynamic boundaries using `VarShiftLeft` rotations over a 512-wide
buffer: the account bytes are rotated by `512 - from_addr_len - 1`, the
`'|'` delimiter byte by `(512 - from_addr_len) * (1 - IsZero(from_addr_len))`,
and the three vectors are summed slot-wise (no overlaps by construction). -/

/-- `fromVec`: the lowercased From-address window, zero past index 255.
(`fromEmailBytes` is `SelectSubArray(emailHeader, from_addr_idx,
from_addr_len)`, so slot `i` is the `i`-th extracted byte for
`i < from_addr_len` and 0 afterwards — as a function of the extracted
byte string `fromB` this is `fromB.getD i 0`.) -/
def fromVecF (fromB : List ℕ) (i : ℕ) : ℕ :=
  if i < 255 then lowerByte (fromB.getD i 0) else 0

/-- `accountVecBase`: the lowercased account-id window, zero past 255. -/
def accountVecBaseF (acctB : List ℕ) (i : ℕ) : ℕ :=
  if i < 255 then lowerByte (acctB.getD i 0) else 0

/-- `delimBase`: the `'|'` (124) byte at slot 0. -/
def delimBaseF (i : ℕ) : ℕ := if i = 0 then 124 else 0

/-- `preimage[i] <== fromVec[i] + delimShifter.out[i] + accountShifter.out[i]`. -/
def preimageF (fromB acctB : List ℕ) (i : ℕ) : ℕ :=
  fromVecF fromB i
    + varShiftLeft delimBaseF 512
        ((512 - fromB.length) * (1 - isZeroOut fromB.length)) i
    + varShiftLeft (accountVecBaseF acctB) 512 (512 - fromB.length - 1) i

/-! ## Manual SHA-256 padding (lines 640-702)

`preimage_ext` extends the preimage to 576 slots; `oneShifter` rotates
a `0x80` byte to slot `preimage_len`; `lenShifter` rotates the two
length bytes (slots 6 and 7 of `lenBase`) so they land at
`preimage_padded_len - 2` and `preimage_padded_len - 1`. -/

/-- `preimage_ext`: the preimage extended by zeros to the 576-slot
padded buffer. -/
def preimageExtF (fromB acctB : List ℕ) (i : ℕ) : ℕ :=
  if i < 512 then preimageF fromB acctB i else 0

/-- `oneBase`: the `0x80` padding byte at slot 0. -/
def oneBaseF (i : ℕ) : ℕ := if i = 0 then 128 else 0

/-- `lenHi`: the high byte of `len_bits = preimage_len * 8` (bits 8-15
of the `Num2Bits(16)` decomposition). -/
def lenHiF (L : ℕ) : ℕ := L * 8 / 256 % 256

/-- `lenLo`: the low byte of `len_bits = preimage_len * 8`. -/
def lenLoF (L : ℕ) : ℕ := L * 8 % 256

/-- `lenBase`: the two non-zero bytes of the 8-byte big-endian length
field, at slots 6 and 7. -/
def lenBaseF (L : ℕ) (i : ℕ) : ℕ :=
  if i = 6 then lenHiF L else if i = 7 then lenLoF L else 0

/-- `from_address_hash_preimage_padded[i] <== preimage_ext[i] +
oneShifter.out[i] + lenShifter.out[i]`, with `shiftOne = 576 -
preimage_len` and `shiftLen = (576 + 8) - preimage_padded_len`. -/
def circuitPaddedByte (fromB acctB : List ℕ) (i : ℕ) : ℕ :=
  preimageExtF fromB acctB i
    + varShiftLeft oneBaseF 576
        (576 - preimageLenCircuit fromB.length acctB.length) i
    + varShiftLeft (lenBaseF (preimageLenCircuit fromB.length acctB.length)) 576
        (576 + 8 - paddedLenCircuit (preimageLenCircuit fromB.length acctB.length)) i

/-- The byte buffer actually hashed: `Sha256Bytes(576)` consumes the
first `preimage_padded_len` bytes of the padded buffer. -/
def circuitPaddedMsg (fromB acctB : List ℕ) : List ℕ :=
  (List.range (paddedLenCircuit (preimageLenCircuit fromB.length acctB.length))).map
    (circuitPaddedByte fromB acctB)

/-! ## Reference SHA-256 (FIPS 180-4; bytes in, 32 big-endian digest
bytes out).  32-bit words are naturals reduced mod `2^32`. -/

/-- Truncation to a 32-bit word. -/
def w32 (x : ℕ) : ℕ := x % 4294967296

/-- 32-bit right rotation. -/
def rotr32 (x n : ℕ) : ℕ := w32 (x / 2 ^ n + x % 2 ^ n * 2 ^ (32 - n))

/-- 32-bit logical right shift. -/
def shr32 (x n : ℕ) : ℕ := x / 2 ^ n

/-- Message-schedule sigma-0. -/
def sigma0 (x : ℕ) : ℕ := (rotr32 x 7) ^^^ (rotr32 x 18) ^^^ (shr32 x 3)

/-- Message-schedule sigma-1. -/
def sigma1 (x : ℕ) : ℕ := (rotr32 x 17) ^^^ (rotr32 x 19) ^^^ (shr32 x 10)

/-- Round function big-sigma-0. -/
def bigS0 (x : ℕ) : ℕ := (rotr32 x 2) ^^^ (rotr32 x 13) ^^^ (rotr32 x 22)

/-- Round function big-sigma-1. -/
def bigS1 (x : ℕ) : ℕ := (rotr32 x 6) ^^^ (rotr32 x 11) ^^^ (rotr32 x 25)

/-- Choose function. -/
def chW (x y z : ℕ) : ℕ := (x &&& y) ^^^ ((x ^^^ 4294967295) &&& z)

/-- Majority function. -/
def majW (x y z : ℕ) : ℕ := (x &&& y) ^^^ (x &&& z) ^^^ (y &&& z)

/-- The 64 SHA-256 round constants (FIPS 180-4 §4.2.2, in decimal). -/
def sha256K : List ℕ :=
  [1116352408, 1899447441, 3049323471, 3921009573, 961987163,
   1508970993, 2453635748, 2870763221, 3624381080, 310598401,
   607225278, 1426881987, 1925078388, 2162078206, 2614888103,
   3248222580, 3835390401, 4022224774, 264347078, 604807628,
   770255983, 1249150122, 1555081692, 1996064986, 2554220882,
   2821834349, 2952996808, 3210313671, 3336571891, 3584528711,
   113926993, 338241895, 666307205, 773529912, 1294757372,
   1396182291, 1695183700, 1986661051, 2177026350, 2456956037,
   2730485921, 2820302411, 3259730800, 3345764771, 3516065817,
   3600352804, 4094571909, 275423344, 430227734, 506948616,
   659060556, 883997877, 958139571, 1322822218, 1537002063,
   1747873779, 1955562222, 2024104815, 2227730452, 2361852424,
   2428436474, 2756734187, 3204031479, 3329325298]

/-- The SHA-256 initial hash value (FIPS 180-4 §5.3.3, in decimal). -/
def sha256IV : List ℕ :=
  [1779033703, 3144134277, 1013904242, 2773480762,
   1359893119, 2600822924, 528734635, 1541459225]

/-- Expand a 16-word block to the 64-word message schedule. -/
def msgSchedule (block : List ℕ) : List ℕ :=
  (List.range 48).foldl
    (fun ws _ =>
      ws ++ [w32 (sigma1 (ws.getD (ws.length - 2) 0) + ws.getD (ws.length - 7) 0
        + sigma0 (ws.getD (ws.length - 15) 0) + ws.getD (ws.length - 16) 0)])
    block

/-- One SHA-256 round on the state `[a, b, c, d, e, f, g, h]`. -/
def roundStep (st : List ℕ) (kw : ℕ × ℕ) : List ℕ :=
  let a := st.getD 0 0
  let b := st.getD 1 0
  let c := st.getD 2 0
  let d := st.getD 3 0
  let e := st.getD 4 0
  let f := st.getD 5 0
  let g := st.getD 6 0
  let h := st.getD 7 0
  let t1 := w32 (h + bigS1 e + chW e f g + kw.1 + kw.2)
  let t2 := w32 (bigS0 a + majW a b c)
  [w32 (t1 + t2), a, b, c, w32 (d + t1), e, f, g]

/-- Compress one 16-word block into the running hash state. -/
def compressBlock (H : List ℕ) (block : List ℕ) : List ℕ :=
  let st := (sha256K.zip (msgSchedule block)).foldl roundStep H
  (List.range 8).map fun i => w32 (H.getD i 0 + st.getD i 0)

/-- Group bytes into 32-bit big-endian words. -/
def bytesToWords (bs : List ℕ) : List ℕ :=
  (List.range (bs.length / 4)).map fun i =>
    bs.getD (4 * i) 0 * 16777216 + bs.getD (4 * i + 1) 0 * 65536
      + bs.getD (4 * i + 2) 0 * 256 + bs.getD (4 * i + 3) 0

/-- Group words into 16-word (64-byte) blocks. -/
def wordBlocks (ws : List ℕ) : List (List ℕ) :=
  (List.range (ws.length / 16)).map fun i =>
    (List.range 16).map fun j => ws.getD (16 * i + j) 0

/-- Serialize the final state words as big-endian bytes. -/
def wordsToBytesBE (ws : List ℕ) : List ℕ :=
  ws.flatMap fun w => [w / 16777216 % 256, w / 65536 % 256, w / 256 % 256, w % 256]

/-- Digest of an already-padded message (a sequence of 64-byte blocks);
this is what zk-email `Sha256Bytes(maxByteLength)(paddedIn, paddedInLength)`
computes on the first `paddedInLength` bytes. -/
def sha256Core (padded : List ℕ) : List ℕ :=
  wordsToBytesBE ((wordBlocks (bytesToWords padded)).foldl compressBlock sha256IV)

/-- Standard SHA-256 Merkle-Damgard padding: a single `0x80` byte, then
zeros, then the 8-byte big-endian bit length, reaching the smallest
multiple of 64 that is `≥ length + 9`. -/
def sha256Pad (msg : List ℕ) : List ℕ :=
  msg ++ [128]
    ++ List.replicate (64 * ((msg.length + 72) / 64) - msg.length - 9) 0
    ++ ((List.range 8).map fun i => msg.length * 8 / 256 ^ (7 - i) % 256)

/-- Standard SHA-256 of a byte string. -/
def sha256 (msg : List ℕ) : List ℕ := sha256Core (sha256Pad msg)

/-- The canonical hash preimage as the spec words it:
`lower(fromEmail) || 0x7C || lower(accountId)`. -/
def bindingPreimage (fromB acctB : List ℕ) : List ℕ :=
  fromB.map asciiLowerSpec ++ [124] ++ acctB.map asciiLowerSpec

/-- The 32 `from_address_hash` output bytes of the privacy-preserving
circuit variant: SHA-256 compression over the manually padded buffer
(`PackBits(256, 8)` groups the big-endian digest bits back into the 32
bytes produced here). -/
def fromAddressHashCircuit (fromB acctB : List ℕ) : List ℕ :=
  sha256Core (circuitPaddedMsg fromB acctB)

/-! ## The verifier-side operations (docs/wasm-groth16-verifier.md)

The NEAR contract's Rust source is not under this repository's src
tree; the `verify` / `verify_with_binding` methods are modelled from
the documentation and from §4.5 / §6 of the spec. -/

/-- The BN254 base-field modulus (coordinates of the proof points). -/
def fqModulus : ℕ :=
  21888242871839275222246405745257275088696311157297823662689037894645226208583

/-- The BN254 scalar-field modulus (public-input field elements). -/
def frModulus : ℕ :=
  21888242871839275222246405745257275088548364400416034343698204186575808495617

/-- Parse a non-empty all-digit character list as a decimal number. -/
def parseDigits : List Char → ℕ → Option ℕ
  | [], acc => some acc
  | c :: cs, acc =>
    if 48 ≤ c.toNat ∧ c.toNat ≤ 57 then parseDigits cs (acc * 10 + (c.toNat - 48))
    else none

/-- Modelled from the spec: a decimal-string-encoded integer; any
non-digit character or an empty string is a parse failure. -/
def parseDecimal (s : String) : Option ℕ :=
  match s.data with
  | [] => none
  | cs => parseDigits cs 0

/-- Modelled from the spec: `parse_fq` — a decimal coordinate string,
failing when malformed or out of the base-field range. -/
def parseFq (s : String) : Option ℕ :=
  (parseDecimal s).bind fun n => if n < fqModulus then some n else none

/-- Modelled from the spec: `parse_fr` — a decimal public-input string,
failing when malformed or out of the scalar-field range. -/
def parseFr (s : String) : Option ℕ :=
  (parseDecimal s).bind fun n => if n < frModulus then some n else none

/-- Parse every string of a list, failing if any element fails. -/
def parseAll (p : String → Option ℕ) : List String → Option (List ℕ)
  | [] => some []
  | s :: rest => (p s).bind fun v => (parseAll p rest).map fun vs => v :: vs

/-- Parse a group of coordinate groups (the two-level `pi_b` points). -/
def parseAllPairs (p : String → Option ℕ) : List (List String) → Option (List (List ℕ))
  | [] => some []
  | g :: rest => (parseAll p g).bind fun vg => (parseAllPairs p rest).map fun vr => vg :: vr

/-- The snarkjs `proof.json` encoding: three groups of decimal
coordinate strings (`pi_a : [String; 3]`, `pi_b : [[String; 2]; 3]`,
`pi_c : [String; 3]`). -/
structure ProofInput where
  piA : List String
  piB : List (List String)
  piC : List String

/-- A proof parsed into native field elements. -/
structure ParsedProof where
  a : List ℕ
  b : List (List ℕ)
  c : List ℕ

/-- Modelled from the spec: `parse_proof` — every coordinate of the
three groups must parse as a base-field element. -/
def parseProof (p : ProofInput) : Option ParsedProof :=
  (parseAll parseFq p.piA).bind fun va =>
    (parseAllPairs parseFq p.piB).bind fun vb =>
      (parseAll parseFq p.piC).map fun vc => ParsedProof.mk va vb vc

/-- Modelled from the spec: `parse_public_inputs` — every public-input
string must parse as a scalar-field element. -/
def parsePublicInputs (inputs : List String) : Option (List ℕ) :=
  parseAll parseFr inputs

/-- Modelled from the spec: the base `verify` method — parse the proof
and the public inputs, returning `false` on any parse failure,
otherwise the boolean result of the external Groth16
`verify_proof(vk, proof, inputs)` primitive (a black box here,
passed as `verifyProofPrim`). -/
def verify (verifyProofPrim : ParsedProof → List ℕ → Bool) (proof : ProofInput)
    (publicInputs : List String) : Bool :=
  match parseProof proof, parsePublicInputs publicInputs with
  | some p, some il => verifyProofPrim p il
  | _, _ => false

/-- Modelled from the spec: `verify_with_binding` — recompute the
packed field elements of the four plaintext claim fields with the same
31-byte packing as the circuit and compare them element-wise against
the corresponding slots of the canonical variant-A public-input layout
(`request_id_packed[9], account_id_packed[9], public_key_packed[9],
from_email_packed[9], timestamp_packed[9], pubkey[17], signature[17]`);
`baseOk` is the result of the base Groth16 proof check. -/
def verifyWithBinding (baseOk : Bool) (publicInputs : List ℕ)
    (accountId newPublicKey fromEmail timestamp : List ℕ) : Bool :=
  baseOk
    && ((publicInputs.drop 9).take 9 == pack accountId)
    && ((publicInputs.drop 18).take 9 == pack newPublicKey)
    && ((publicInputs.drop 27).take 9 == pack fromEmail)
    && ((publicInputs.drop 36).take 9 == pack timestamp)

/-! ## Verifying-key (zkey) artifact layout check
(`checkGroth16ZkeyLayout` in the snarkjs utility module; the artifact
file is given as its byte list) -/

/-- `Buffer.readUInt32LE`. -/
def readU32LE (bs : List ℕ) (off : ℕ) : ℕ :=
  bs.getD off 0 + 256 * bs.getD (off + 1) 0 + 65536 * bs.getD (off + 2) 0
    + 16777216 * bs.getD (off + 3) 0

/-- `Buffer.readBigUInt64LE`. -/
def readU64LE (bs : List ℕ) (off : ℕ) : ℕ :=
  readU32LE bs off + 4294967296 * readU32LE bs (off + 4)

/-- `ZkeyCheckResult = { ok: true } | { ok: false; reason: string }`. -/
inductive ZkeyCheckResult where
  | ok : ZkeyCheckResult
  | fail (reason : String) : ZkeyCheckResult
deriving DecidableEq

/-- The `REQUIRED_SECTIONS` scan after the section loop: the first
missing identifier of 1..10 is reported. -/
def requiredScan (seen : List ℕ) : List ℕ → ZkeyCheckResult
  | [] => .ok
  | s :: rest =>
    if seen.contains s then requiredScan seen rest
    else .fail s!"missing section {s}"

/-- The 10-iteration section loop of `checkGroth16ZkeyLayout`, with the
number of remaining iterations as the recursion measure: EOF check for
the 12-byte section header, duplicate-type check, bounds check of
`pos + 12 + size`, then the trailing-bytes check and the
required-sections check after the last iteration. -/
def sectionScan (bs : List ℕ) : ℕ → ℕ → List ℕ → ZkeyCheckResult
  | 0, pos, seen =>
    if pos ≠ bs.length then
      .fail s!"trailing bytes after last section (last ends at {pos}, file is {bs.length})"
    else requiredScan seen [1, 2, 3, 4, 5, 6, 7, 8, 9, 10]
  | i + 1, pos, seen =>
    if pos + 12 > bs.length then
      .fail s!"unexpected EOF reading section header #{10 - i} at offset {pos}"
    else if seen.contains (readU32LE bs pos) then
      .fail s!"duplicate section {readU32LE bs pos}"
    else if pos + 12 + readU64LE bs (pos + 4) > bs.length then
      .fail s!"section {readU32LE bs pos} exceeds file size (ends at {pos + 12 + readU64LE bs (pos + 4)}, file is {bs.length})"
    else sectionScan bs i (pos + 12 + readU64LE bs (pos + 4)) (readU32LE bs pos :: seen)

/-- `checkGroth16ZkeyLayout`: 4-byte magic `"zkey"`, 4-byte version
(must be 1), 4-byte section count (must be 10), then the section loop. -/
def checkGroth16ZkeyLayout (bs : List ℕ) : ZkeyCheckResult :=
  if bs.length < 12 then .fail s!"file too small ({bs.length} bytes)"
  else if bs.take 4 ≠ [122, 107, 101, 121] then .fail "bad magic"
  else if readU32LE bs 4 ≠ 1 then .fail s!"unsupported version ({readU32LE bs 4})"
  else if readU32LE bs 8 ≠ 10 then .fail s!"unexpected nSections ({readU32LE bs 8})"
  else sectionScan bs 10 12 []

/-- Declarative layout of a section list starting at `pos`: each
section is `{type: uint32, size: uint64, payload}`, no section extends
past the end of the file, and the last one ends exactly at the end
(zero trailing bytes). -/
def sectionsLayout (bs : List ℕ) : ℕ → List (ℕ × ℕ) → Prop
  | pos, [] => pos = bs.length
  | pos, (t, s) :: rest =>
    pos + 12 ≤ bs.length ∧ readU32LE bs pos = t ∧ readU64LE bs (pos + 4) = s ∧
      pos + 12 + s ≤ bs.length ∧ sectionsLayout bs (pos + 12 + s) rest

/-- The declarative acceptance condition the claim states: magic tag,
version 1, section count 10, exactly 10 consecutive sections with no
duplicated type, none past end of file, zero trailing bytes, and every
type 1..10 present (hence, with 10 sections and no duplicates, exactly
once). -/
def zkeyLayoutSpec (bs : List ℕ) : Prop :=
  12 ≤ bs.length ∧ bs.take 4 = [122, 107, 101, 121] ∧
    readU32LE bs 4 = 1 ∧ readU32LE bs 8 = 10 ∧
    ∃ secs : List (ℕ × ℕ), secs.length = 10 ∧ sectionsLayout bs 12 secs ∧
      (secs.map Prod.fst).Nodup ∧
      ∀ t ∈ [1, 2, 3, 4, 5, 6, 7, 8, 9, 10], t ∈ secs.map Prod.fst

/-- A minimal well-formed zkey byte image: header, then the ten
sections (types 1..10) with empty payloads. -/
def zkeySample : List ℕ :=
  [122, 107, 101, 121, 1, 0, 0, 0, 10, 0, 0, 0]
    ++ (List.range 10).flatMap fun i => [i + 1, 0, 0, 0, 0, 0, 0, 0, 0, 0, 0, 0]

/-! ## FieldLocator offset computation (scripts/generateWitness.ts)

`main` decodes the header bytes into a JS string
(`headerBuf.toString("utf8")`) and takes `fromLineMatch.index` of the
regex `/^from:[^\r\n]*$/im` over that string as `from_start_idx`
(likewise for the Subject and Date matches), while the lengths are
taken as `Buffer.from(str, "utf8").length`.  A JS `match.index` counts
UTF-16 code units of the decoded string, whereas the circuit consumes
byte offsets into the raw header buffer; the two agree only while
every character before the match is a single-byte (ASCII) character.
The decoded header is modelled as the list of its Unicode code
points. -/

/-- UTF-8 byte length of a code point. -/
def utf8Len (c : ℕ) : ℕ :=
  if c < 128 then 1 else if c < 2048 then 2 else if c < 65536 then 3 else 4

/-- UTF-16 code-unit length of a code point (what a JS string index
counts). -/
def utf16Len (c : ℕ) : ℕ := if c < 65536 then 1 else 2

/-- Case-insensitive match of the literal `from:` at character
position `k` of the decoded header. -/
def matchesFromAt (cs : List ℕ) (k : ℕ) : Bool :=
  ((cs.drop k).take 5).map asciiLowerSpec == [102, 114, 111, 109, 58]

/-- `^` under the `m` flag: position 0 or right after a line
terminator. -/
def isLineStart (cs : List ℕ) (k : ℕ) : Bool :=
  k == 0 || cs.getD (k - 1) 0 == 10 || cs.getD (k - 1) 0 == 13

/-- The character position of the first `/^from:/im` match. -/
def fromMatchPos (cs : List ℕ) : Option ℕ :=
  (List.range cs.length).find? fun k => isLineStart cs k && matchesFromAt cs k

/-- `from_start_idx` as generateWitness.ts computes it:
`fromLineMatch.index`, the UTF-16 code-unit offset of the match in the
decoded header string. -/
def fromStartIdxCode (cs : List ℕ) : Option ℕ :=
  (fromMatchPos cs).map fun k => ((cs.take k).map utf16Len).sum

/-- The byte offset of the same match in the UTF-8 header buffer — the
offset the spec requires and the circuit consumes. -/
def fromStartIdxBytes (cs : List ℕ) : Option ℕ :=
  (fromMatchPos cs).map fun k => ((cs.take k).map utf8Len).sum

/-- The decoded code points of the header `"x: é\r\nfrom:a@b"`: the
two bytes 0xC3 0xA9 decode to the single character é (U+00E9), after
which the computed string offset of the From line (6) no longer equals
its byte offset (7). -/
def divergentHeader : List ℕ :=
  [120, 58, 32, 233, 13, 10, 102, 114, 111, 109, 58, 97, 64, 98]

/-- Closed form of the padded buffer contents, used to relate the
rotation-built padding to the standard one. -/
def paddedSpecByte (m : List ℕ) (i : ℕ) : ℕ :=
  if i < m.length then m.getD i 0
  else if i = m.length then 128
  else if i < 64 * ((m.length + 72) / 64) - 2 then 0
  else if i = 64 * ((m.length + 72) / 64) - 2 then lenHiF m.length
  else lenLoF m.length

/-! ## Helper lemmas -/

theorem base256_foldl_succ (f : ℕ → ℕ) (n : ℕ) :
    (List.range (n + 1)).foldl (fun acc j => acc * 256 + f j) 0 =
      (List.range n).foldl (fun acc j => acc * 256 + f j) 0 * 256 + f n := by
  rw [List.range_succ, List.foldl_append]
  rfl

theorem base256_foldl_lt (f : ℕ → ℕ) (hf : ∀ j, f j < 256) (n : ℕ) :
    (List.range n).foldl (fun acc j => acc * 256 + f j) 0 < 256 ^ n := by
  induction n with
  | zero => simp
  | succ n ih =>
    rw [base256_foldl_succ, pow_succ]
    have h1 := hf n
    have h2 : (List.range n).foldl (fun acc j => acc * 256 + f j) 0 ≤ 256 ^ n - 1 := by
      omega
    have h3 : 1 ≤ 256 ^ n := Nat.one_le_pow _ _ (by norm_num)
    have h4 : (List.range n).foldl (fun acc j => acc * 256 + f j) 0 * 256 ≤
        (256 ^ n - 1) * 256 := Nat.mul_le_mul_right 256 h2
    omega

theorem base256_foldl_digit (f : ℕ → ℕ) (hf : ∀ j, f j < 256) :
    ∀ n j, j < n →
      (List.range n).foldl (fun acc j => acc * 256 + f j) 0 / 256 ^ (n - 1 - j) % 256 =
        f j := by
  intro n
  induction n with
  | zero => omega
  | succ n ih =>
    intro j hj
    rw [base256_foldl_succ]
    by_cases hjn : j = n
    · subst hjn
      simp only [Nat.succ_sub_one, Nat.sub_self, pow_zero, Nat.div_one]
      have := hf j
      omega
    · have hjlt : j < n := by omega
      have hd : ((List.range n).foldl (fun acc j => acc * 256 + f j) 0 * 256 + f n) / 256 =
          (List.range n).foldl (fun acc j => acc * 256 + f j) 0 := by
        have := hf n
        omega
      have hpow : (256 : ℕ) ^ (n + 1 - 1 - j) = 256 * 256 ^ (n - 1 - j) := by
        have : n + 1 - 1 - j = (n - 1 - j) + 1 := by omega
        rw [this]
        ring
      rw [hpow, ← Nat.div_div_eq_div_mul, hd]
      exact ih j hjlt

theorem selectSubArray_getD (buf : List ℕ) (s l m i : ℕ) (hi : i < m) :
    (selectSubArray buf s l m).getD i 0 = if i < l then buf.getD (s + i) 0 else 0 := by
  unfold selectSubArray
  rw [List.getD_eq_getElem?_getD, List.getElem?_map, List.getElem?_range hi]
  rfl

theorem isZeroOutZ_eq_zero (x : ℤ) : isZeroOutZ x = 0 ↔ x ≠ 0 := by
  unfold isZeroOutZ
  split_ifs with h <;> simp [h]

theorem gap_byte_ok (b : ℕ) :
    ((b : ℤ) - 13) * ((b : ℤ) - 10) ≠ 0 ↔ b ≠ 13 ∧ b ≠ 10 := by
  rw [mul_ne_zero_iff, sub_ne_zero, sub_ne_zero]
  omega

theorem getD_lt_of_forall_lt (l : List ℕ) (hb : ∀ b ∈ l, b < 256) (k : ℕ) :
    l.getD k 0 < 256 := by
  by_cases hk : k < l.length
  · rw [List.getD_eq_getElem l 0 hk]
    exact hb _ (List.getElem_mem hk)
  · rw [List.getD_eq_getElem?_getD, List.getElem?_eq_none (by omega)]
    norm_num

theorem unpackElem_packChunk (bytes : List ℕ) (hb : ∀ b ∈ bytes, b < 256) (i : ℕ) :
    unpackElem (packChunk bytes i) =
      (List.range 31).map fun j => bytes.getD (31 * i + j) 0 := by
  unfold unpackElem packChunk
  apply List.map_congr_left
  intro j hj
  rw [List.mem_range] at hj
  have h30 : 30 - j = 31 - 1 - j := by omega
  rw [h30]
  exact base256_foldl_digit (fun j => bytes.getD (31 * i + j) 0)
    (fun j => getD_lt_of_forall_lt bytes hb _) 31 j hj

theorem flatten_chunk_maps (f : ℕ → ℕ) (c : ℕ) :
    ∀ m, ((List.range m).map fun i => (List.range c).map fun j => f (c * i + j)).flatten =
      (List.range (c * m)).map f := by
  intro m
  induction m with
  | zero => simp
  | succ m ih =>
    rw [List.range_succ, List.map_append, List.flatten_append, ih]
    have hcm : c * (m + 1) = c * m + c := by ring
    rw [hcm, List.range_add, List.map_append, List.map_map]
    simp only [List.map_cons, List.map_nil, List.flatten_cons, List.flatten_nil,
      List.append_nil]
    congr 1

theorem range_map_getD (l : List ℕ) :
    (List.range l.length).map (fun k => l.getD k 0) = l := by
  apply List.ext_getElem
  · simp
  · intro n h1 h2
    rw [List.getElem_map, List.getElem_range, List.getD_eq_getElem l 0 h2]

theorem preimageF_eval (fromB acctB : List ℕ) (hf : fromB.length ≤ 255)
    (ha : acctB.length ≤ 255) (i : ℕ) (hi : i < 512) :
    preimageF fromB acctB i =
      if i < fromB.length then lowerByte (fromB.getD i 0)
      else if i = fromB.length then 124
      else if i < fromB.length + 1 + acctB.length then
        lowerByte (acctB.getD (i - fromB.length - 1) 0)
      else 0 := by
  have hlow0 : lowerByte 0 = 0 := by decide
  have h1 : fromVecF fromB i = if i < fromB.length then lowerByte (fromB.getD i 0) else 0 := by
    unfold fromVecF
    by_cases hlt : i < fromB.length
    · rw [if_pos (by omega), if_pos hlt]
    · rw [if_neg hlt]
      by_cases h255 : i < 255
      · rw [if_pos h255, List.getD_eq_default _ _ (by omega), hlow0]
      · rw [if_neg h255]
  have h2 : varShiftLeft delimBaseF 512
      ((512 - fromB.length) * (1 - isZeroOut fromB.length)) i =
      if i = fromB.length then 124 else 0 := by
    unfold varShiftLeft delimBaseF isZeroOut
    refine if_congr ?_ rfl rfl
    by_cases h0 : fromB.length = 0
    · rw [if_pos h0]
      omega
    · rw [if_neg h0]
      have hs : (512 - fromB.length) * (1 - 0) = 512 - fromB.length := by ring
      rw [hs]
      omega
  have h3 : varShiftLeft (accountVecBaseF acctB) 512 (512 - fromB.length - 1) i =
      if fromB.length + 1 ≤ i ∧ i < fromB.length + 1 + acctB.length then
        lowerByte (acctB.getD (i - fromB.length - 1) 0)
      else 0 := by
    unfold varShiftLeft accountVecBaseF
    by_cases hc : fromB.length + 1 ≤ i
    · have harg : (i + (512 - fromB.length - 1)) % 512 = i - fromB.length - 1 := by omega
      rw [harg]
      by_cases hlt : i - fromB.length - 1 < 255
      · rw [if_pos hlt]
        by_cases hin : i < fromB.length + 1 + acctB.length
        · rw [if_pos ⟨hc, hin⟩]
        · rw [if_neg (by tauto), List.getD_eq_default _ _ (by omega), hlow0]
      · rw [if_neg hlt, if_neg (by omega)]
    · have harg : (i + (512 - fromB.length - 1)) % 512 = i + 511 - fromB.length := by omega
      rw [harg, if_neg (by omega), if_neg (by omega)]
  unfold preimageF
  rw [h1, h2, h3]
  split_ifs <;> omega

theorem numBlocksCircuit_eq (L : ℕ) (h : L ≤ 511) :
    numBlocksCircuit L = (L + 9 + 63) / 64 := by
  simp only [numBlocksCircuit, lessEqThanOut]
  split_ifs <;> omega

theorem paddedLenCircuit_eq (L : ℕ) (h : L ≤ 511) :
    paddedLenCircuit L = 64 * ((L + 72) / 64) := by
  unfold paddedLenCircuit
  rw [numBlocksCircuit_eq L h]

theorem lowerByte_eq_asciiLowerSpec (b : ℕ) : lowerByte b = asciiLowerSpec b := by
  unfold lowerByte asciiLowerSpec lessThanOut
  split_ifs <;> omega

theorem asciiLowerSpec_zero : asciiLowerSpec 0 = 0 := by decide

theorem getD_map_asciiLowerSpec (l : List ℕ) (i : ℕ) :
    (l.map asciiLowerSpec).getD i 0 = asciiLowerSpec (l.getD i 0) := by
  by_cases h : i < l.length
  · rw [List.getD_eq_getElem _ _ (by simpa using h), List.getElem_map,
      List.getD_eq_getElem _ _ h]
  · rw [List.getD_eq_default _ _ (by simpa using not_lt.mp h),
      List.getD_eq_default _ _ (not_lt.mp h), asciiLowerSpec_zero]

theorem getD_replicate_zero (k n : ℕ) : (List.replicate k (0 : ℕ)).getD n 0 = 0 := by
  by_cases h : n < k
  · rw [List.getD_eq_getElem _ _ (by simpa using h), List.getElem_replicate]
  · rw [List.getD_eq_default _ _ (by simpa using not_lt.mp h)]

theorem list_eq_of_getD (l1 l2 : List ℕ) (hl : l1.length = l2.length)
    (h : ∀ n < l1.length, l1.getD n 0 = l2.getD n 0) : l1 = l2 := by
  apply List.ext_getElem hl
  intro n h1 h2
  have := h n h1
  rwa [List.getD_eq_getElem _ _ h1, List.getD_eq_getElem _ _ h2] at this

theorem bindingPreimage_length (fromB acctB : List ℕ) :
    (bindingPreimage fromB acctB).length = fromB.length + 1 + acctB.length := by
  simp [bindingPreimage]
  omega

theorem bindingPreimage_getD (fromB acctB : List ℕ) (i : ℕ) :
    (bindingPreimage fromB acctB).getD i 0 =
      if i < fromB.length then asciiLowerSpec (fromB.getD i 0)
      else if i = fromB.length then 124
      else if i < fromB.length + 1 + acctB.length then
        asciiLowerSpec (acctB.getD (i - fromB.length - 1) 0)
      else 0 := by
  unfold bindingPreimage
  rcases Nat.lt_trichotomy i fromB.length with h1 | h1 | h1
  · rw [List.getD_append _ _ _ _ (by simp; omega), List.getD_append _ _ _ _ (by simpa using h1),
      getD_map_asciiLowerSpec, if_pos h1]
  · subst h1
    rw [List.getD_append _ _ _ _ (by simp), List.getD_append_right _ _ _ _ (by simp),
      if_neg (lt_irrefl _), if_pos rfl]
    simp
  · rw [List.getD_append_right _ _ _ _ (by simp; omega), getD_map_asciiLowerSpec]
    rw [if_neg (by omega), if_neg (by omega)]
    have hidx : i - (fromB.map asciiLowerSpec ++ [124]).length = i - fromB.length - 1 := by
      simp
      omega
    rw [hidx]
    by_cases h2 : i < fromB.length + 1 + acctB.length
    · rw [if_pos h2]
    · rw [if_neg h2, List.getD_eq_default _ _ (by omega), asciiLowerSpec_zero]

theorem unpack_pack_id (bytes : List ℕ) (hlen : bytes.length ≤ 255)
    (hb : ∀ b ∈ bytes, b < 256) :
    unpack (pack bytes) bytes.length = bytes := by
  unfold unpack pack
  rw [List.map_map]
  have hmap : (List.range 9).map (unpackElem ∘ packChunk bytes) =
      (List.range 9).map fun i => (List.range 31).map fun j => bytes.getD (31 * i + j) 0 := by
    apply List.map_congr_left
    intro i _
    exact unpackElem_packChunk bytes hb i
  rw [hmap, flatten_chunk_maps (fun k => bytes.getD k 0) 31 9]
  have h279 : (31 : ℕ) * 9 = 279 := by norm_num
  rw [h279, ← List.map_take, List.take_range]
  have hmin : bytes.length ⊓ 279 = bytes.length := by omega
  rw [hmin, range_map_getD]

theorem pack_inj_of_length_eq (x y : List ℕ) (hx : x.length ≤ 255)
    (hxb : ∀ b ∈ x, b < 256) (hy : y.length ≤ 255) (hyb : ∀ b ∈ y, b < 256)
    (hlen : x.length = y.length) (hp : pack x = pack y) : x = y := by
  have h1 := unpack_pack_id x hx hxb
  have h2 := unpack_pack_id y hy hyb
  rw [← h1, ← h2, hp, hlen]

theorem sha256Pad_eq_map (m : List ℕ) (hm : m.length ≤ 511) :
    sha256Pad m = (List.range (64 * ((m.length + 72) / 64))).map (paddedSpecByte m) := by
  have h9 : m.length + 9 ≤ 64 * ((m.length + 72) / 64) := by omega
  have h576 : 64 * ((m.length + 72) / 64) ≤ 576 := by omega
  have hlen : (sha256Pad m).length = 64 * ((m.length + 72) / 64) := by
    unfold sha256Pad
    simp only [List.length_append, List.length_replicate, List.length_map,
      List.length_range, List.length_cons, List.length_nil]
    omega
  apply list_eq_of_getD
  · rw [hlen]
    simp
  · intro n hn
    rw [hlen] at hn
    have hr : ((List.range (64 * ((m.length + 72) / 64))).map (paddedSpecByte m)).getD n 0 =
        paddedSpecByte m n := by
      rw [List.getD_eq_getElem _ _ (by simpa using hn), List.getElem_map, List.getElem_range]
    rw [hr]
    unfold sha256Pad paddedSpecByte
    have hl1 : (m ++ [128]).length = m.length + 1 := by simp
    have hl2 : (m ++ [128] ++ List.replicate (64 * ((m.length + 72) / 64) - m.length - 9) 0).length
        = 64 * ((m.length + 72) / 64) - 8 := by
      simp only [List.length_append, List.length_replicate, List.length_cons, List.length_nil]
      omega
    rcases Nat.lt_trichotomy n m.length with h1 | h1 | h1
    · rw [List.getD_append _ _ _ _ (by rw [hl2]; omega),
        List.getD_append _ _ _ _ (by rw [hl1]; omega),
        List.getD_append _ _ _ _ h1, if_pos h1]
    · subst h1
      rw [List.getD_append _ _ _ _ (by rw [hl2]; omega),
        List.getD_append _ _ _ _ (by rw [hl1]; omega),
        List.getD_append_right _ _ _ _ (le_refl _), Nat.sub_self,
        if_neg (lt_irrefl _), if_pos rfl]
      rfl
    · rw [if_neg (by omega), if_neg (by omega)]
      by_cases h2 : n < 64 * ((m.length + 72) / 64) - 8
      · rw [List.getD_append _ _ _ _ (by rw [hl2]; omega),
          List.getD_append_right _ _ _ _ (by rw [hl1]; omega),
          getD_replicate_zero, if_pos (by omega)]
      · rw [List.getD_append_right _ _ _ _ (by rw [hl2]; omega), hl2]
        have hidx : n - (64 * ((m.length + 72) / 64) - 8) < 8 := by omega
        have hmap : ((List.range 8).map fun i => m.length * 8 / 256 ^ (7 - i) % 256).getD
            (n - (64 * ((m.length + 72) / 64) - 8)) 0 =
            m.length * 8 / 256 ^ (7 - (n - (64 * ((m.length + 72) / 64) - 8))) % 256 := by
          rw [List.getD_eq_getElem _ _ (by simpa using hidx), List.getElem_map,
            List.getElem_range]
        rw [hmap]
        by_cases h3 : n < 64 * ((m.length + 72) / 64) - 2
        · rw [if_pos h3]
          have hexp : 2 ≤ 7 - (n - (64 * ((m.length + 72) / 64) - 8)) := by omega
          have hsmall : m.length * 8 < 256 ^ (7 - (n - (64 * ((m.length + 72) / 64) - 8))) := by
            have : (256 : ℕ) ^ 2 ≤ 256 ^ (7 - (n - (64 * ((m.length + 72) / 64) - 8))) :=
              Nat.pow_le_pow_right (by norm_num) hexp
            have h2562 : (256 : ℕ) ^ 2 = 65536 := by norm_num
            omega
          rw [Nat.div_eq_of_lt hsmall]
        · rw [if_neg h3]
          by_cases h4 : n = 64 * ((m.length + 72) / 64) - 2
          · rw [if_pos h4]
            have hidx6 : n - (64 * ((m.length + 72) / 64) - 8) = 6 := by omega
            rw [hidx6]
            unfold lenHiF
            norm_num
          · rw [if_neg h4]
            have hidx7 : n - (64 * ((m.length + 72) / 64) - 8) = 7 := by omega
            rw [hidx7]
            unfold lenLoF
            norm_num

theorem circuitPaddedByte_eval (fromB acctB : List ℕ) (hf : fromB.length ≤ 255)
    (ha : acctB.length ≤ 255) (i : ℕ)
    (hi : i < paddedLenCircuit (preimageLenCircuit fromB.length acctB.length)) :
    circuitPaddedByte fromB acctB i =
      paddedSpecByte (bindingPreimage fromB acctB) i := by
  unfold circuitPaddedByte
  set L := preimageLenCircuit fromB.length acctB.length with hL
  have hLval : L = fromB.length + 1 + acctB.length := by rw [hL]; rfl
  have hL511 : L ≤ 511 := by omega
  have hP : paddedLenCircuit L = 64 * ((L + 72) / 64) := paddedLenCircuit_eq L hL511
  have hP9 : L + 9 ≤ paddedLenCircuit L := by omega
  have hP576 : paddedLenCircuit L ≤ 576 := by omega
  have hone : varShiftLeft oneBaseF 576 (576 - L) i = if i = L then 128 else 0 := by
    unfold varShiftLeft oneBaseF
    refine if_congr ?_ rfl rfl
    omega
  have hlen : varShiftLeft (lenBaseF L) 576 (576 + 8 - paddedLenCircuit L) i =
      if i = paddedLenCircuit L - 2 then lenHiF L
      else if i = paddedLenCircuit L - 1 then lenLoF L else 0 := by
    unfold varShiftLeft lenBaseF
    refine if_congr ?_ rfl (if_congr ?_ rfl rfl) <;> omega
  rw [hone, hlen]
  unfold preimageExtF paddedSpecByte
  rw [bindingPreimage_getD, bindingPreimage_length, ← hLval]
  by_cases h512 : i < 512
  · rw [if_pos h512, preimageF_eval fromB acctB hf ha i h512]
    simp only [lowerByte_eq_asciiLowerSpec, ← hLval]
    split_ifs <;> omega
  · rw [if_neg h512]
    split_ifs <;> omega

theorem sectionsLayout_nil (bs : List ℕ) (pos : ℕ) :
    sectionsLayout bs pos [] ↔ pos = bs.length := Iff.rfl

theorem sectionsLayout_cons (bs : List ℕ) (pos t s : ℕ) (rest : List (ℕ × ℕ)) :
    sectionsLayout bs pos ((t, s) :: rest) ↔
      pos + 12 ≤ bs.length ∧ readU32LE bs pos = t ∧ readU64LE bs (pos + 4) = s ∧
        pos + 12 + s ≤ bs.length ∧ sectionsLayout bs (pos + 12 + s) rest := Iff.rfl

theorem requiredScan_ok_iff (seen req : List ℕ) :
    requiredScan seen req = .ok ↔ ∀ t ∈ req, t ∈ seen := by
  induction req with
  | nil => simp [requiredScan]
  | cons s rest ih =>
    unfold requiredScan
    by_cases h : seen.contains s
    · rw [if_pos h, ih]
      have hs : s ∈ seen := List.elem_iff.mp h
      constructor
      · intro hall t ht
        rcases List.mem_cons.mp ht with h1 | h1
        · rw [h1]
          exact hs
        · exact hall t h1
      · intro hall t ht
        exact hall t (List.mem_cons_of_mem _ ht)
    · rw [if_neg h]
      constructor
      · intro habs
        cases habs
      · intro hall
        exact absurd (List.elem_iff.mpr (hall s (List.mem_cons_self _ _))) h

theorem sectionScan_ok_iff (bs : List ℕ) :
    ∀ (n pos : ℕ) (seen : List ℕ),
      sectionScan bs n pos seen = .ok ↔
        ∃ secs : List (ℕ × ℕ), secs.length = n ∧ sectionsLayout bs pos secs ∧
          (secs.map Prod.fst).Nodup ∧ (∀ t ∈ secs.map Prod.fst, t ∉ seen) ∧
          ∀ t ∈ [1, 2, 3, 4, 5, 6, 7, 8, 9, 10], t ∈ secs.map Prod.fst ∨ t ∈ seen := by
  intro n
  induction n with
  | zero =>
    intro pos seen
    unfold sectionScan
    by_cases hp : pos ≠ bs.length
    · rw [if_pos hp]
      constructor
      · intro habs
        cases habs
      · rintro ⟨secs, hlen, hlay, -, -, -⟩
        rw [List.eq_nil_of_length_eq_zero hlen, sectionsLayout_nil] at hlay
        exact absurd hlay hp
    · rw [if_neg hp]
      push_neg at hp
      rw [requiredScan_ok_iff]
      constructor
      · intro hall
        refine ⟨[], rfl, (sectionsLayout_nil bs pos).mpr hp, by simp, by simp, ?_⟩
        intro t ht
        exact Or.inr (hall t ht)
      · rintro ⟨secs, hlen, hlay, -, -, hreq⟩
        intro t ht
        rcases hreq t ht with hin | hin
        · rw [List.eq_nil_of_length_eq_zero hlen] at hin
          simp at hin
        · exact hin
  | succ n ih =>
    intro pos seen
    unfold sectionScan
    by_cases h1 : pos + 12 > bs.length
    · rw [if_pos h1]
      constructor
      · intro habs
        cases habs
      · rintro ⟨secs, hlen, hlay, -, -, -⟩
        cases secs with
        | nil => simp at hlen
        | cons hd tl =>
          obtain ⟨t, s⟩ := hd
          rw [sectionsLayout_cons] at hlay
          obtain ⟨h12, -, -, -, -⟩ := hlay
          omega
    · rw [if_neg h1]
      by_cases h2 : seen.contains (readU32LE bs pos)
      · rw [if_pos h2]
        constructor
        · intro habs
          cases habs
        · rintro ⟨secs, hlen, hlay, -, hfresh, -⟩
          cases secs with
          | nil => simp at hlen
          | cons hd tl =>
            obtain ⟨t, s⟩ := hd
            rw [sectionsLayout_cons] at hlay
            obtain ⟨-, hT, -, -, -⟩ := hlay
            have hmem : t ∈ ((t, s) :: tl).map Prod.fst := by simp
            have hnot := hfresh t hmem
            rw [← hT] at hnot
            exact (hnot (List.elem_iff.mp h2)).elim
      · rw [if_neg h2]
        by_cases h3 : pos + 12 + readU64LE bs (pos + 4) > bs.length
        · rw [if_pos h3]
          constructor
          · intro habs
            cases habs
          · rintro ⟨secs, hlen, hlay, -, -, -⟩
            cases secs with
            | nil => simp at hlen
            | cons hd tl =>
              obtain ⟨t, s⟩ := hd
              rw [sectionsLayout_cons] at hlay
              obtain ⟨-, -, hS, hb, -⟩ := hlay
              rw [hS] at h3
              omega
        · rw [if_neg h3, ih]
          constructor
          · rintro ⟨tl, hlen, hlay, hnodup, hfresh, hreq⟩
            refine ⟨(readU32LE bs pos, readU64LE bs (pos + 4)) :: tl, by simp [hlen],
              (sectionsLayout_cons bs pos _ _ tl).mpr ⟨by omega, rfl, rfl, by omega, hlay⟩,
              ?_, ?_, ?_⟩
            · rw [List.map_cons, List.nodup_cons]
              refine ⟨?_, hnodup⟩
              intro hmem
              exact (hfresh _ hmem) (List.mem_cons_self _ _)
            · intro t hmem
              rw [List.map_cons] at hmem
              rcases List.mem_cons.mp hmem with h4 | h4
              · rw [h4]
                intro hin
                exact absurd (List.elem_iff.mpr hin) h2
              · intro hin
                exact (hfresh t h4) (List.mem_cons_of_mem _ hin)
            · intro t ht
              rcases hreq t ht with hin | hin
              · exact Or.inl (by rw [List.map_cons]; exact List.mem_cons_of_mem _ hin)
              · rcases List.mem_cons.mp hin with h4 | h4
                · exact Or.inl (by rw [List.map_cons, h4]; exact List.mem_cons_self _ _)
                · exact Or.inr h4
          · rintro ⟨secs, hlen, hlay, hnodup, hfresh, hreq⟩
            cases secs with
            | nil => simp at hlen
            | cons hd tl =>
              obtain ⟨t, s⟩ := hd
              rw [sectionsLayout_cons] at hlay
              obtain ⟨-, hT, hS, -, hlay'⟩ := hlay
              subst hT
              subst hS
              refine ⟨tl, by simpa using hlen, hlay', ?_, ?_, ?_⟩
              · rw [List.map_cons, List.nodup_cons] at hnodup
                exact hnodup.2
              · intro u hmem hin
                rcases List.mem_cons.mp hin with h4 | h4
                · rw [List.map_cons, List.nodup_cons] at hnodup
                  rw [h4] at hmem
                  exact hnodup.1 hmem
                · exact (hfresh u (by rw [List.map_cons]; exact List.mem_cons_of_mem _ hmem)) h4
              · intro u hu
                rcases hreq u hu with hin | hin
                · rw [List.map_cons] at hin
                  rcases List.mem_cons.mp hin with h4 | h4
                  · rw [h4]
                    exact Or.inr (List.mem_cons_self _ _)
                  · exact Or.inl h4
                · exact Or.inr (List.mem_cons_of_mem _ hin)

theorem verifyWithBinding_true_iff (baseOk : Bool) (pub : List ℕ)
    (a k f t : List ℕ) :
    verifyWithBinding baseOk pub a k f t = true ↔
      baseOk = true ∧ (pub.drop 9).take 9 = pack a ∧ (pub.drop 18).take 9 = pack k ∧
        (pub.drop 27).take 9 = pack f ∧ (pub.drop 36).take 9 = pack t := by
  unfold verifyWithBinding
  simp only [Bool.and_eq_true, beq_iff_eq]
  tauto

/-! ## Claim theorems -/

/-- **C1** (anchoring soundness). For any header buffer and any claimed
top-level field start index: if the index is 0 the anchor constraint
block is satisfied vacuously (the check is skipped); if the index is at
least 2 the block is satisfiable exactly when the two bytes immediately
preceding the index are CR (13) and LF (10) — in particular, whenever
those two bytes are not exactly CR LF the verifier rejects. -/
theorem anchor_soundness (buf : List ℕ) (start : ℕ) :
    (start = 0 → anchorConstraints buf start) ∧
    (2 ≤ start →
      (anchorConstraints buf start ↔
        buf.getD (start - 2) 0 = 13 ∧ buf.getD (start - 1) 0 = 10)) := by
  constructor
  · intro h
    subst h
    simp [anchorConstraints, isZeroOut]
  · intro h2
    have hne : start ≠ 0 := by omega
    have h0 : (selectSubArray buf (start - 2) 2 2).getD 0 0 = buf.getD (start - 2) 0 := by
      rw [selectSubArray_getD buf _ 2 2 0 (by norm_num)]
      simp
    have h1 : (selectSubArray buf (start - 2) 2 2).getD 1 0 = buf.getD (start - 1) 0 := by
      rw [selectSubArray_getD buf _ 2 2 1 (by norm_num)]
      have : start - 2 + 1 = start - 1 := by omega
      simp [this]
    unfold anchorConstraints
    rw [h0, h1]
    simp only [isZeroOut, if_neg hne, Nat.cast_zero, sub_zero, one_mul, sub_eq_zero]
    omega

/-- Witness for C1 at a concrete buffer and start index. -/
theorem anchor_soundness_witness :
    anchorConstraints [13, 10, 102] 2 ∧ ¬ anchorConstraints [65, 10, 102] 2 := by
  constructor
  · exact ((anchor_soundness [13, 10, 102] 2).2 (by norm_num)).mpr (by decide)
  · intro h
    have h2 := ((anchor_soundness [65, 10, 102] 2).2 (by norm_num)).mp h
    exact absurd h2 (by decide)

/-- **C5** (From-gap no-newline check). With the gap window in range
(`from_start_idx + 5 ≤ from_addr_idx` and real gap length at most 255),
the constraint block is satisfiable exactly when no byte strictly
between the end of `"from:"` and the start of the extracted address is
CR (13) or LF (10); the zero-fill slots of the padded 255-wide window
beyond the real gap never cause rejection. -/
theorem from_gap_soundness (buf : List ℕ) (from_start_idx from_addr_idx : ℕ)
    (hle : from_start_idx + 5 ≤ from_addr_idx)
    (hlen : from_addr_idx - (from_start_idx + 5) ≤ 255) :
    fromGapConstraints buf from_start_idx from_addr_idx ↔
      ∀ j, from_start_idx + 5 ≤ j → j < from_addr_idx →
        buf.getD j 0 ≠ 13 ∧ buf.getD j 0 ≠ 10 := by
  unfold fromGapConstraints
  constructor
  · intro hc j hj1 hj2
    have hi : j - (from_start_idx + 5) < 255 := by omega
    have h := hc (j - (from_start_idx + 5)) hi
    rw [selectSubArray_getD buf _ _ 255 _ hi, if_pos (by omega)] at h
    have hj : from_start_idx + 5 + (j - (from_start_idx + 5)) = j := by omega
    rw [hj, isZeroOutZ_eq_zero, gap_byte_ok] at h
    exact h
  · intro hb i hi
    rw [selectSubArray_getD buf _ _ 255 _ hi]
    split_ifs with hlt
    · rw [isZeroOutZ_eq_zero, gap_byte_ok]
      exact hb (from_start_idx + 5 + i) (by omega) (by omega)
    · rw [isZeroOutZ_eq_zero, gap_byte_ok]
      norm_num

/-- Witness for C5: a gap `" A "` (no CR/LF) is accepted, and the
acceptance condition indeed holds for every byte of that gap. -/
theorem from_gap_soundness_witness :
    fromGapConstraints [102, 114, 111, 109, 58, 32, 65, 32, 97, 64, 98] 0 8 := by
  refine (from_gap_soundness _ 0 8 (by norm_num) (by norm_num)).mpr ?_
  decide

/-- **C2** (binding check). For every base-proof result, public-input
list and plaintext binding claim (each field a byte string of length at
most 255): `verify_with_binding` returns `true` if and only if the
base proof check passes and every recomputed packed value equals,
element-wise, its corresponding slot of the public inputs; moreover,
replacing any single claim field by a different byte string of the same
length (in particular, changing any single character) flips a `true`
result to `false`. -/
theorem verify_with_binding_correct (baseOk : Bool) (pub : List ℕ)
    (a k f t : List ℕ)
    (hal : a.length ≤ 255) (hab : ∀ b ∈ a, b < 256)
    (hkl : k.length ≤ 255) (hkb : ∀ b ∈ k, b < 256)
    (hfl : f.length ≤ 255) (hfb : ∀ b ∈ f, b < 256)
    (htl : t.length ≤ 255) (htb : ∀ b ∈ t, b < 256) :
    (verifyWithBinding baseOk pub a k f t = true ↔
      baseOk = true ∧ (pub.drop 9).take 9 = pack a ∧ (pub.drop 18).take 9 = pack k ∧
        (pub.drop 27).take 9 = pack f ∧ (pub.drop 36).take 9 = pack t) ∧
    (∀ a2 : List ℕ, a2.length = a.length → (∀ b ∈ a2, b < 256) → a2 ≠ a →
      verifyWithBinding baseOk pub a k f t = true →
      verifyWithBinding baseOk pub a2 k f t = false) ∧
    (∀ k2 : List ℕ, k2.length = k.length → (∀ b ∈ k2, b < 256) → k2 ≠ k →
      verifyWithBinding baseOk pub a k f t = true →
      verifyWithBinding baseOk pub a k2 f t = false) ∧
    (∀ f2 : List ℕ, f2.length = f.length → (∀ b ∈ f2, b < 256) → f2 ≠ f →
      verifyWithBinding baseOk pub a k f t = true →
      verifyWithBinding baseOk pub a k f2 t = false) ∧
    (∀ t2 : List ℕ, t2.length = t.length → (∀ b ∈ t2, b < 256) → t2 ≠ t →
      verifyWithBinding baseOk pub a k f t = true →
      verifyWithBinding baseOk pub a k f t2 = false) := by
  refine ⟨verifyWithBinding_true_iff baseOk pub a k f t, ?_, ?_, ?_, ?_⟩
  · intro a2 hl2 hb2 hne htrue
    rw [Bool.eq_false_iff]
    intro htrue2
    obtain ⟨_, hsa, _, _, _⟩ := (verifyWithBinding_true_iff baseOk pub a k f t).mp htrue
    obtain ⟨_, hsa2, _, _, _⟩ := (verifyWithBinding_true_iff baseOk pub a2 k f t).mp htrue2
    exact hne (pack_inj_of_length_eq a2 a (by omega) hb2 hal hab hl2 (by rw [← hsa, ← hsa2]))
  · intro k2 hl2 hb2 hne htrue
    rw [Bool.eq_false_iff]
    intro htrue2
    obtain ⟨_, _, hsk, _, _⟩ := (verifyWithBinding_true_iff baseOk pub a k f t).mp htrue
    obtain ⟨_, _, hsk2, _, _⟩ := (verifyWithBinding_true_iff baseOk pub a k2 f t).mp htrue2
    exact hne (pack_inj_of_length_eq k2 k (by omega) hb2 hkl hkb hl2 (by rw [← hsk, ← hsk2]))
  · intro f2 hl2 hb2 hne htrue
    rw [Bool.eq_false_iff]
    intro htrue2
    obtain ⟨_, _, _, hsf, _⟩ := (verifyWithBinding_true_iff baseOk pub a k f t).mp htrue
    obtain ⟨_, _, _, hsf2, _⟩ := (verifyWithBinding_true_iff baseOk pub a k f2 t).mp htrue2
    exact hne (pack_inj_of_length_eq f2 f (by omega) hb2 hfl hfb hl2 (by rw [← hsf, ← hsf2]))
  · intro t2 hl2 hb2 hne htrue
    rw [Bool.eq_false_iff]
    intro htrue2
    obtain ⟨_, _, _, _, hst⟩ := (verifyWithBinding_true_iff baseOk pub a k f t).mp htrue
    obtain ⟨_, _, _, _, hst2⟩ := (verifyWithBinding_true_iff baseOk pub a k f t2).mp htrue2
    exact hne (pack_inj_of_length_eq t2 t (by omega) hb2 htl htb hl2 (by rw [← hst, ← hst2]))

/-- Witness for C2: a matching claim against the packed slots verifies,
and flipping the single account-id byte flips the result to false. -/
theorem verify_with_binding_correct_witness :
    verifyWithBinding true
      (List.replicate 9 0 ++ pack [97] ++ pack [5] ++ pack [6] ++ pack [7]
        ++ List.replicate 34 0) [97] [5] [6] [7] = true ∧
    verifyWithBinding true
      (List.replicate 9 0 ++ pack [97] ++ pack [5] ++ pack [6] ++ pack [7]
        ++ List.replicate 34 0) [98] [5] [6] [7] = false := by
  have h := verify_with_binding_correct true
    (List.replicate 9 0 ++ pack [97] ++ pack [5] ++ pack [6] ++ pack [7]
      ++ List.replicate 34 0) [97] [5] [6] [7]
    (by norm_num) (by decide) (by norm_num) (by decide)
    (by norm_num) (by decide) (by norm_num) (by decide)
  have h1 : verifyWithBinding true
      (List.replicate 9 0 ++ pack [97] ++ pack [5] ++ pack [6] ++ pack [7]
        ++ List.replicate 34 0) [97] [5] [6] [7] = true :=
    h.1.mpr ⟨rfl, by decide, by decide, by decide, by decide⟩
  exact ⟨h1, h.2.1 [98] (by norm_num) (by decide) (by decide) h1⟩

/-- **C3** (sender-binding hash). For all byte strings `fromEmail` and
`accountId` of length at most 255, the digest computed by the
privacy-preserving circuit variant — lowercasing both inputs, splicing
`lower(from) || 0x7C || lower(accountId)` together with
rotate-with-zero-fill shifts, padding it manually, and running the
SHA-256 compression — equals the standard SHA-256 digest (32 bytes,
big-endian) of that preimage, where lowercasing maps only ASCII bytes
65..90 to their `+32` counterparts; consequently the hash is
deterministic and agrees on inputs that differ only in ASCII letter
case (i.e. whose ASCII case-folds coincide). -/
theorem sender_binding_hash (fromB acctB : List ℕ)
    (hf : fromB.length ≤ 255) (ha : acctB.length ≤ 255) :
    fromAddressHashCircuit fromB acctB = sha256 (bindingPreimage fromB acctB) ∧
    ∀ fromB2 acctB2 : List ℕ, fromB2.length ≤ 255 → acctB2.length ≤ 255 →
      fromB2.map asciiLowerSpec = fromB.map asciiLowerSpec →
      acctB2.map asciiLowerSpec = acctB.map asciiLowerSpec →
      fromAddressHashCircuit fromB2 acctB2 = fromAddressHashCircuit fromB acctB := by
  have key : ∀ f a : List ℕ, f.length ≤ 255 → a.length ≤ 255 →
      circuitPaddedMsg f a = sha256Pad (bindingPreimage f a) := by
    intro f a hfl hal
    have hL : preimageLenCircuit f.length a.length ≤ 511 := by
      unfold preimageLenCircuit
      omega
    have hlen : (bindingPreimage f a).length = preimageLenCircuit f.length a.length := by
      rw [bindingPreimage_length]
      rfl
    rw [sha256Pad_eq_map _ (by rw [hlen]; omega), hlen, ← paddedLenCircuit_eq _ hL]
    unfold circuitPaddedMsg
    apply List.map_congr_left
    intro i hi
    rw [List.mem_range] at hi
    exact circuitPaddedByte_eval f a hfl hal i hi
  constructor
  · unfold fromAddressHashCircuit sha256
    rw [key fromB acctB hf ha]
  · intro f2 a2 h2f h2a he1 he2
    unfold fromAddressHashCircuit
    rw [key f2 a2 h2f h2a, key fromB acctB hf ha]
    unfold bindingPreimage
    rw [he1, he2]

/-- Witness for C3 on `fromEmail = "A@B"` and `accountId = "b"`. -/
theorem sender_binding_hash_witness :
    fromAddressHashCircuit [65, 64, 66] [98] = sha256 (bindingPreimage [65, 64, 66] [98]) :=
  (sender_binding_hash [65, 64, 66] [98] (by norm_num) (by norm_num)).1

/-- **C4** (pack/unpack round-trip). For every byte string of length at
most 255, packing into 9 field elements (31 bytes per element, base-256
big-endian, zero-extended on the right, element 0 whenever the chunk
starts past the length) followed by unpacking and truncating at the
length recovers the original bytes exactly. -/
theorem pack_unpack_roundtrip (bytes : List ℕ) (hlen : bytes.length ≤ 255)
    (hb : ∀ b ∈ bytes, b < 256) :
    unpack (pack bytes) bytes.length = bytes :=
  unpack_pack_id bytes hlen hb

/-- Witness for C4 on the concrete byte string `[104, 105]`. -/
theorem pack_unpack_roundtrip_witness :
    unpack (pack [104, 105]) ([104, 105] : List ℕ).length = [104, 105] :=
  pack_unpack_roundtrip [104, 105] (by norm_num) (by decide)

/-- **C6** (block-count ladder refinement). For every preimage length
`0 ≤ L ≤ 511`, the block count selected by the circuit's ladder of
eight threshold comparisons equals `⌈(L + 9) / 64⌉`, and the resulting
padded length `numBlocks * 64` is the smallest multiple of 64 that is
`≥ L + 9`. -/
theorem block_ladder_refines_ceil (L : ℕ) (h : L ≤ 511) :
    numBlocksCircuit L = (L + 9 + 63) / 64 ∧
    L + 9 ≤ paddedLenCircuit L ∧
    ∀ m : ℕ, L + 9 ≤ 64 * m → paddedLenCircuit L ≤ 64 * m := by
  have he := numBlocksCircuit_eq L h
  refine ⟨he, ?_, ?_⟩
  · unfold paddedLenCircuit
    rw [he]
    omega
  · intro m hm
    unfold paddedLenCircuit
    rw [he]
    have : (L + 9 + 63) / 64 ≤ m := by omega
    omega

/-- Witness for C6 at `L = 56` (just past the first threshold):
the ladder yields 2 blocks and 128 is the least multiple of 64 ≥ 65. -/
theorem block_ladder_refines_ceil_witness :
    numBlocksCircuit 56 = 2 ∧ 56 + 9 ≤ paddedLenCircuit 56 ∧
      paddedLenCircuit 56 ≤ 64 * 2 := by
  obtain ⟨h1, h2, h3⟩ := block_ladder_refines_ceil 56 (by norm_num)
  exact ⟨by rw [h1], h2, h3 2 (by norm_num)⟩

/-- **C7** (base verify error handling). For every input to the
base-mode `verify`: if parsing the proof's coordinate strings or any
public-input string fails, `verify` returns `false` (it is a total
boolean function — no exception reaches the caller); otherwise it
returns exactly the boolean result of the external `verify_proof`
primitive applied to the parsed proof and parsed inputs. -/
theorem verify_error_handling (verifyProofPrim : ParsedProof → List ℕ → Bool)
    (proof : ProofInput) (publicInputs : List String) :
    ((parseProof proof = none ∨ parsePublicInputs publicInputs = none) →
      verify verifyProofPrim proof publicInputs = false) ∧
    (∀ p il, parseProof proof = some p → parsePublicInputs publicInputs = some il →
      verify verifyProofPrim proof publicInputs = verifyProofPrim p il) := by
  constructor
  · rintro (h | h)
    · cases hp : parsePublicInputs publicInputs <;> simp [verify, h, hp]
    · cases hp : parseProof proof <;> simp [verify, h, hp]
  · intro p il h1 h2
    simp [verify, h1, h2]

/-- Witness for C7: a malformed coordinate string makes `verify` return
`false` even when the external primitive would accept anything. -/
theorem verify_error_handling_witness :
    verify (fun _ _ => true) (ProofInput.mk ["x"] [] []) [] = false := by
  apply (verify_error_handling (fun _ _ => true) (ProofInput.mk ["x"] [] []) []).1
  left
  rfl

/-- **C8** (zkey layout check). For every byte sequence presented as a
verifying-key artifact: the layout check returns `ok` if and only if
the first 4 bytes are the magic tag `"zkey"`, the version field is 1,
the section count field is 10, and the file consists of exactly 10
consecutive `{type: uint32, size: uint64, payload}` sections with no
duplicated type, none extending past end of file, zero trailing bytes,
and every type 1..10 present (with 10 nodup sections: exactly once);
every violation is reported as a failure carrying a reason string. -/
theorem zkey_layout_check_correct (bs : List ℕ) :
    (checkGroth16ZkeyLayout bs = .ok ↔ zkeyLayoutSpec bs) ∧
    (checkGroth16ZkeyLayout bs ≠ .ok → ∃ r, checkGroth16ZkeyLayout bs = .fail r) := by
  constructor
  · unfold checkGroth16ZkeyLayout zkeyLayoutSpec
    by_cases h1 : bs.length < 12
    · rw [if_pos h1]
      constructor
      · intro habs
        cases habs
      · rintro ⟨h, -⟩
        omega
    · rw [if_neg h1]
      by_cases h2 : bs.take 4 ≠ [122, 107, 101, 121]
      · rw [if_pos h2]
        constructor
        · intro habs
          cases habs
        · rintro ⟨-, h, -⟩
          exact absurd h h2
      · rw [if_neg h2]
        push_neg at h2
        by_cases h3 : readU32LE bs 4 ≠ 1
        · rw [if_pos h3]
          constructor
          · intro habs
            cases habs
          · rintro ⟨-, -, h, -⟩
            exact absurd h h3
        · rw [if_neg h3]
          push_neg at h3
          by_cases h4 : readU32LE bs 8 ≠ 10
          · rw [if_pos h4]
            constructor
            · intro habs
              cases habs
            · rintro ⟨-, -, -, h, -⟩
              exact absurd h h4
          · rw [if_neg h4]
            push_neg at h4
            rw [sectionScan_ok_iff]
            constructor
            · rintro ⟨secs, hlen, hlay, hnodup, -, hreq⟩
              refine ⟨by omega, h2, h3, h4, secs, hlen, hlay, hnodup, ?_⟩
              intro t ht
              rcases hreq t ht with hin | hin
              · exact hin
              · simp at hin
            · rintro ⟨-, -, -, -, secs, hlen, hlay, hnodup, hreq⟩
              exact ⟨secs, hlen, hlay, hnodup, by simp, fun t ht => Or.inl (hreq t ht)⟩
  · intro hne
    cases h : checkGroth16ZkeyLayout bs with
    | ok => exact absurd h hne
    | fail r => exact ⟨r, rfl⟩

set_option maxRecDepth 4000 in
/-- Witness for C8: the minimal well-formed zkey image satisfies the
declarative layout spec via the check. -/
theorem zkey_layout_check_correct_witness : zkeyLayoutSpec zkeySample :=
  (zkey_layout_check_correct zkeySample).1.mp (by decide)

/-- **C10** (hash-preimage length invariant). Every witness accepted by
the privacy-preserving circuit variant satisfies the `Num2Bits(8)`
range constraints on `from_addr_len` and `subject_account_id_len`
(each < 256), so the preimage length
`preimage_len = from_addr_len + 1 + subject_account_id_len` always
lies in `1 .. 511` (the `'|'` delimiter byte contributes 1 even when
both inputs are empty) and satisfies the `Num2Bits(9)` constraint. -/
theorem preimage_len_invariant (from_addr_len subject_account_id_len : ℕ)
    (h : lenRangeConstraints from_addr_len subject_account_id_len) :
    1 ≤ preimageLenCircuit from_addr_len subject_account_id_len ∧
    preimageLenCircuit from_addr_len subject_account_id_len ≤ 511 ∧
    num2BitsSat 9 (preimageLenCircuit from_addr_len subject_account_id_len) := by
  obtain ⟨h1, h2⟩ := h
  unfold num2BitsSat at *
  unfold preimageLenCircuit
  norm_num at h1 h2 ⊢
  omega

/-- **C9** (header offsets are not byte offsets — code bug). On the
header `"x: é\r\nfrom:a@b"` (one two-byte UTF-8 character before the
From line) the offset computed by generateWitness.ts — the JS string
index of the regex match, which counts UTF-16 code units of the
decoded header — is 6, while the byte offset of the From line in the
raw header buffer (the value the spec requires and the circuit
consumes) is 7, so the two computations diverge. -/
theorem locator_offset_divergence :
    fromStartIdxCode divergentHeader = some 6 ∧
    fromStartIdxBytes divergentHeader = some 7 ∧
    fromStartIdxCode divergentHeader ≠ fromStartIdxBytes divergentHeader := by
  decide

/-- Witness for C10 at the maximal lengths 255 / 255. -/
theorem preimage_len_invariant_witness :
    1 ≤ preimageLenCircuit 255 255 ∧ preimageLenCircuit 255 255 ≤ 511 ∧
      num2BitsSat 9 (preimageLenCircuit 255 255) :=
  preimage_len_invariant 255 255 (by constructor <;> decide)

end ZkEmail
